import Mathlib

/-!
# Word-frequency analyzer: shallow embedding and verification

This file embeds the word-frequency analysis pipeline of
`src/utils/WordAnalyzer.js` (class `WordAnalyzer`) into Lean and proves the
specified properties about it.

Modelling conventions:
* JavaScript strings are modelled as `List Char` (`Str`), at ASCII
  granularity: `String.prototype.toLowerCase` is modelled by the basic-latin
  `Char.toLower`, the regex class `\w` by ASCII alphanumerics plus `'_'`,
  and `\s` by the ASCII whitespace characters.  All claims are about ASCII
  text behaviour.
* A JavaScript plain object used as a dictionary is modelled twice.  The
  dictionary model (`FreqTable`, `bump`, `addCount`) is the intended
  semantics the source documents ("Word frequency object"): an
  insertion-ordered association list that `Object.entries`/`Object.keys`
  enumerate in that order, assignment to an existing key keeping its
  position.  The refined model (`JsFreqTable`, `bumpJS`, `addCountJS`)
  additionally carries the prototype chain of a fresh `{}`: reads of
  absent keys fall through to the inherited `Object.prototype` members,
  `+` degrades to string concatenation on their string forms, and a
  primitive assigned to `__proto__` is consumed by the inherited accessor.
  The refined model exhibits where the program deviates from the
  dictionary semantics (claims C2 and C10).
* `Array.prototype.sort` with comparator `(a, b) => b.count - a.count` is a
  stable descending sort by count (ECMAScript 2019 requires sort stability);
  it is modelled by a stable insertion sort, which produces the same result.
* The analyzer contains no `throw` statement; calls that the specification
  discusses as possibly raising are embedded with an explicit `Except`
  result so that "raises" is expressible.  A missing (`undefined`) argument
  is modelled with `Option`.
* `new Date().toISOString()` in `generateFileContent` is modelled by an
  injected timestamp parameter `now`.
-/

set_option maxRecDepth 16384

namespace WordAnalyzer

/-- JavaScript string, at character-list granularity. -/
abbrev Str := List Char

/-- A JS object used as a word-count dictionary, in enumeration
(insertion) order.  From `src/utils/WordAnalyzer.js`: the values stored are
always numbers. -/
abbrev FreqTable := List (Str × Nat)

/-- `{word, count}` object produced by `getTopWords`. -/
structure RankedWord where
  word : Str
  count : Nat
deriving DecidableEq, Repr

/-- Result object of `analyzeText` (`src/utils/WordAnalyzer.js:92-97`). -/
structure AnalysisResult where
  totalWords : Nat
  uniqueWords : Nat
  frequency : FreqTable
  topWords : List RankedWord
deriving DecidableEq, Repr

/-- An article object as consumed by `analyzeMultipleArticles` and
`generateFileContent`; absent JS properties are `none`. -/
structure Document where
  text : Option Str := none
  title : Option Str := none
  url : Option Str := none
  err : Option Str := none
  analysis : Option AnalysisResult := none
deriving DecidableEq, Repr

/-- Result object of `analyzeMultipleArticles`
(`src/utils/WordAnalyzer.js:137-142`). -/
structure BatchAnalysisResult where
  articles : List Document
  combinedFrequency : FreqTable
  topWords : List RankedWord
  totalArticles : Nat
deriving DecidableEq, Repr

/-- The stop-word list built in the constructor
(`src/utils/WordAnalyzer.js:8-19`), in source order.  The JS `Set` only
dedups; membership is the same as membership in this list. -/
def stopWords : List Str :=
  ([ "the", "a", "an", "and", "or", "but", "in", "on", "at", "to", "for", "of", "with", "by",
     "is", "are", "was", "were", "be", "been", "being", "have", "has", "had", "do", "does", "did",
     "will", "would", "could", "should", "may", "might", "must", "can", "this", "that", "these",
     "those", "i", "you", "he", "she", "it", "we", "they", "me", "him", "her", "us", "them",
     "my", "your", "his", "her", "its", "our", "their", "from", "up", "about", "into", "over",
     "after", "all", "any", "both", "each", "few", "more", "most", "other", "some", "such",
     "no", "nor", "not", "only", "own", "same", "so", "than", "too", "very", "just", "now",
     "here", "there", "when", "where", "why", "how", "what", "which", "who", "whom", "whose",
     "if", "because", "as", "until", "while", "through", "during", "before", "after", "above",
     "below", "between", "among", "through", "during", "before", "after", "above", "below"
   ] : List String).map String.data

/-- The ASCII characters matched by the regex class `\s`. -/
def isSpaceChar (c : Char) : Bool :=
  c == ' ' || c == '\t' || c == '\n' || c == '\r' || c == '\x0b' || c == '\x0c'

/-- The characters matched by the regex class `\w`: ASCII alphanumerics and
underscore. -/
def isWordChar (c : Char) : Bool :=
  c.isAlphanum || c == '_'

/-- One character of `.replace(/[^\w\s]/g, ' ')`: punctuation becomes a
space, word and whitespace characters stay. -/
def keepWordChar (c : Char) : Char :=
  if isWordChar c || isSpaceChar c then c else ' '

/-- A whitespace character rewritten to a plain space (the character-level
effect of `.replace(/\s+/g, ' ')`). -/
def normSpace (c : Char) : Char :=
  if isSpaceChar c then ' ' else c

/-- `.replace(/\s+/g, ' ')`: every maximal run of whitespace becomes one
space.  Of each run only the last character survives, as a plain space. -/
def collapseSpaces : Str → Str
  | [] => []
  | [c] => [normSpace c]
  | a :: b :: rest =>
    if isSpaceChar a && isSpaceChar b then collapseSpaces (b :: rest)
    else normSpace a :: collapseSpaces (b :: rest)

/-- `.trim()`: remove leading and trailing whitespace. -/
def trimChars (l : Str) : Str :=
  ((l.dropWhile isSpaceChar).reverse.dropWhile isSpaceChar).reverse

/-- `cleanText` (`src/utils/WordAnalyzer.js:27-35`): lowercase, replace
punctuation by spaces, collapse whitespace runs, trim.  `if (!text)` makes
the empty string map to itself before the pipeline runs. -/
def cleanText (text : Str) : Str :=
  if text.isEmpty then []
  else trimChars (collapseSpaces ((text.map Char.toLower).map keepWordChar))

/-- `.split(/\s+/)`, splitting at whitespace characters.  `extractWords`
only ever applies this to `cleanText` output, which contains no run of two
whitespace characters, so splitting at each whitespace character agrees
with splitting at maximal runs. -/
def splitOnSpaces : Str → List Str
  | [] => [[]]
  | c :: rest =>
    if isSpaceChar c then [] :: splitOnSpaces rest
    else
      match splitOnSpaces rest with
      | [] => [[c]]
      | w :: ws => (c :: w) :: ws

/-- `/^\d+$/.test(word)`: nonempty and entirely decimal digits. -/
def isAllDigits (w : Str) : Bool :=
  !w.isEmpty && w.all Char.isDigit

/-- `extractWords` (`src/utils/WordAnalyzer.js:42-52`): clean, split, then
filter by length, stop words, pure numbers, and nonemptiness after trim. -/
def extractWords (text : Str) : List Str :=
  let cleanedText := cleanText text
  if cleanedText.isEmpty then []
  else
    ((((splitOnSpaces cleanedText).filter
          (fun word => decide (3 ≤ word.length))).filter
        (fun word => !stopWords.contains word)).filter
      (fun word => !isAllDigits word)).filter
    (fun word => decide (0 < (trimChars word).length))

/-- `frequency[word] = (frequency[word] || 0) + 1` in the intended
dictionary semantics: an existing key keeps its position, a new key is
appended.  The prototype chain of the real `{}` is deliberately not
modelled here — `bumpJS` below is the refined embedding that carries it,
and the two differ exactly on the `Object.prototype` member names. -/
def bump : FreqTable → Str → FreqTable
  | [], w => [(w, 1)]
  | (k, v) :: rest, w =>
    if k = w then (k, v + 1) :: rest else (k, v) :: bump rest w

/-- `countWordFrequency` (`src/utils/WordAnalyzer.js:59-67`). -/
def countWordFrequency (words : List Str) : FreqTable :=
  words.foldl bump []

/-- Stable insertion of a ranked word into a descending-by-count list: it
goes in front of the first element whose count is not larger, hence after
every earlier-enumerated element with the same count. -/
def insertRanked (x : RankedWord) : List RankedWord → List RankedWord
  | [] => [x]
  | y :: ys => if x.count < y.count then y :: insertRanked x ys else x :: y :: ys

/-- `.sort((a, b) => b.count - a.count)`: the stable descending sort by
count. -/
def sortByCountDesc (l : List RankedWord) : List RankedWord :=
  l.foldr insertRanked []

/-- `arr.slice(0, n)` for a possibly negative `n`: a negative `n` counts
from the end of the array (`max(length + n, 0)`), a nonnegative one is
clamped to the length. -/
def jsSlice (l : List α) (n : Int) : List α :=
  if n < 0 then l.take (l.length - (-n).toNat) else l.take n.toNat

/-- `getTopWords` (`src/utils/WordAnalyzer.js:75-80`): entries to
`{word, count}` pairs, stable descending sort by count, `slice(0, count)`.
JS default argument: `count = 5`. -/
def getTopWords (frequency : FreqTable) (count : Int := 5) : List RankedWord :=
  jsSlice (sortByCountDesc (frequency.map (fun p => ⟨p.1, p.2⟩))) count

/-- `analyzeText` (`src/utils/WordAnalyzer.js:87-98`). -/
def analyzeText (text : Str) : AnalysisResult :=
  let words := extractWords text
  let frequency := countWordFrequency words
  let topWords := getTopWords frequency
  { totalWords := words.length
    uniqueWords := frequency.length
    frequency := frequency
    topWords := topWords }

/-- `combined[word] = (combined[word] || 0) + count` for one entry, in
the intended dictionary semantics (see `bump`; `addCountJS` below is the
refined embedding with the prototype chain). -/
def addCount : FreqTable → Str → Nat → FreqTable
  | [], w, c => [(w, c)]
  | (k, v) :: rest, w, c =>
    if k = w then (k, v + c) :: rest else (k, v) :: addCount rest w c

/-- The inner loop of `combineFrequencies`: fold one table into the
accumulator, entry by entry in enumeration order. -/
def mergeTable (acc freq : FreqTable) : FreqTable :=
  freq.foldl (fun combined p => addCount combined p.1 p.2) acc

/-- `combineFrequencies` (`src/utils/WordAnalyzer.js:105-115`). -/
def combineFrequencies (frequencyObjects : List FreqTable) : FreqTable :=
  frequencyObjects.foldl mergeTable []

/-- `analyzeMultipleArticles` (`src/utils/WordAnalyzer.js:123-143`): each
article is analyzed from `article.text || ''` and annotated with its
analysis; the per-article tables are merged and ranked.  The JS loop
mutates `article.analysis` and pushes the article; returning the updated
copies preserves the same document-to-analysis association. -/
def analyzeMultipleArticles (articles : List Document) (topCount : Int := 5) :
    BatchAnalysisResult :=
  let articleAnalyses := articles.map
    (fun article => { article with analysis := some (analyzeText (article.text.getD [])) })
  let allFrequencies := articles.map
    (fun article => (analyzeText (article.text.getD [])).frequency)
  let combinedFrequency := combineFrequencies allFrequencies
  let topWords := getTopWords combinedFrequency topCount
  { articles := articleAnalyses
    combinedFrequency := combinedFrequency
    topWords := topWords
    totalArticles := articles.length }

/-- The error taxonomy the specification names for the analyzer. -/
inductive AnalyzerError where
  | invalidArgument
deriving DecidableEq, Repr

/-- Calling `getTopWords` through an explicit error channel.  The source of
`getTopWords` contains no `throw` and no operation that can raise on a
table and a number, so every call returns normally. -/
def getTopWordsCall (frequency : FreqTable) (count : Int) :
    Except AnalyzerError (List RankedWord) :=
  .ok (getTopWords frequency count)

/-- Calling `analyzeMultipleArticles` through an explicit error channel;
the source contains no `throw`, so every call returns normally. -/
def analyzeMultipleArticlesCall (articles : List Document) (topCount : Int) :
    Except AnalyzerError BatchAnalysisResult :=
  .ok (analyzeMultipleArticles articles topCount)

/-- `analyzeText` as called with a possibly missing argument: `cleanText`
coalesces a missing or empty `text` to the empty result via `if (!text)`. -/
def analyzeTextJS (text : Option Str) : AnalysisResult :=
  analyzeText (text.getD [])

/-- Calling `analyzeText` through an explicit error channel; the source
contains no `throw`, so every call returns normally. -/
def analyzeTextCall (text : Option Str) : Except AnalyzerError AnalysisResult :=
  .ok (analyzeTextJS text)

/-- `frequency[w] || 0`: the count stored at key `w`, zero when absent. -/
def getCount : FreqTable → Str → Nat
  | [], _ => 0
  | (k, v) :: rest, w => if k = w then v else getCount rest w

/-- The enumeration-ordered key list of a table (`Object.keys`). -/
def keys (tbl : FreqTable) : List Str :=
  tbl.map Prod.fst

/-- Sum of the counts of all entries stored under key `w`; on a genuine
object table (distinct keys) this is just `getCount`. -/
def entrySum (tbl : FreqTable) (w : Str) : Nat :=
  (tbl.map (fun p => if p.1 = w then p.2 else 0)).sum

/-- JS `x || d` for an optional string property: a missing or empty string
falls back to the default. -/
def jsOr (v : Option Str) (d : Str) : Str :=
  match v with
  | none => d
  | some t => if t.isEmpty then d else t

/-- Decimal rendering of a number interpolated into a template string. -/
def natStr (n : Nat) : Str :=
  (Nat.repr n).data

/-- One entry of the per-article listing in `generateFileContent`
(`src/utils/WordAnalyzer.js:158-162`), at 0-based position `index`. -/
def articleEntry (index : Nat) (article : Document) : Str :=
  natStr (index + 1) ++ ". ".data ++ jsOr article.title "Unknown Title".data ++ "\n".data
    ++ "   URL: ".data ++ jsOr article.url "Unknown URL".data ++ "\n".data
    ++ "   Words: ".data ++ natStr ((article.analysis.map AnalysisResult.totalWords).getD 0)
    ++ "\n\n".data

/-- One entry of the ranked top-word listing
(`src/utils/WordAnalyzer.js:167-169`). -/
def topEntry (index : Nat) (item : RankedWord) : Str :=
  natStr (index + 1) ++ ". \"".data ++ item.word ++ "\" - ".data ++ natStr item.count
    ++ " occurrences\n".data

/-- `generateFileContent` (`src/utils/WordAnalyzer.js:151-174`), with the
`new Date().toISOString()` timestamp injected as `now`. -/
def generateFileContent (now : Str) (topWords : List RankedWord)
    (analysis : BatchAnalysisResult) : Str :=
  "Word Frequency Analysis Results\n===============================\n\n".data
    ++ "Analysis Date: ".data ++ now ++ "\n".data
    ++ "Articles Analyzed: ".data ++ natStr analysis.articles.length ++ "\n\n".data
    ++ "Articles:\n".data
    ++ (analysis.articles.enum.map (fun p => articleEntry p.1 p.2)).flatten
    ++ "Top 5 Most Repeated Words Across All Articles:\n".data
    ++ "==============================================\n".data
    ++ (topWords.enum.map (fun p => topEntry p.1 p.2)).flatten
    ++ "\n\nGenerated by Haci Arpaci\n".data

/-- The descending-by-count order that `(a, b) => b.count - a.count`
establishes. -/
def countGE (a b : RankedWord) : Prop := b.count ≤ a.count

/-- A character that the normalizer may emit: a space, or a
lowercase-stable word character. -/
def goodChar (c : Char) : Prop :=
  c = ' ' ∨ (isWordChar c = true ∧ Char.toLower c = c ∧ isSpaceChar c = false)

/-- Adjacent characters are never both whitespace. -/
def noTwoSpaces (x y : Char) : Prop :=
  ¬(isSpaceChar x = true ∧ isSpaceChar y = true)

/-! ## The refined JS-object model

`countWordFrequency` and `combineFrequencies` build their tables in plain
`\x7b\x7d` objects.  Such an object inherits the `Object.prototype`
members, so for the twelve member names (`constructor`, `__proto__`,
`toString`, ...) a read of an absent key yields a truthy function or
object instead of `undefined`.  The definitions below embed
`(obj[word] || 0) + v` and `obj[word] = v` with that behaviour. -/

/-- A primitive value the analyzer's tables can really hold: the numbers
it means to store, or the strings that `+` produces once an inherited
`Object.prototype` member has leaked into an increment. -/
inductive JsVal where
  | num (n : Nat)
  | str (s : Str)
deriving DecidableEq, Repr

/-- A frequency object with real `\x7b\x7d` semantics: its own properties
in insertion order, values as actually stored. -/
abbrev JsFreqTable := List (Str × JsVal)

/-- JS truthiness of the primitives in this flow: `0` and `""` are falsy. -/
def jsTruthy : JsVal → Bool
  | .num n => n != 0
  | .str s => !s.isEmpty

/-- `ToString` of these primitives. -/
def jsToString : JsVal → Str
  | .num n => natStr n
  | .str s => s

/-- The JS `+` on these primitives: numeric addition, or string
concatenation as soon as one side is a string. -/
def jsAdd : JsVal → JsVal → JsVal
  | .num a, .num b => .num (a + b)
  | a, b => .str (jsToString a ++ jsToString b)

/-- The inherited `Object.prototype` members of a fresh `\x7b\x7d`, by the
string form under which each enters `(x || 0) + v` (all are truthy, and
`ToPrimitive` takes their `toString`).  The native-function texts are as
V8/Node prints them; no theorem depends on their exact contents. -/
def protoStr (w : Str) : Option Str :=
  if w = "__proto__".data then some "[object Object]".data
  else if w = "constructor".data then
    some "function Object() \x7b [native code] \x7d".data
  else if w = "hasOwnProperty".data then
    some "function hasOwnProperty() \x7b [native code] \x7d".data
  else if w = "isPrototypeOf".data then
    some "function isPrototypeOf() \x7b [native code] \x7d".data
  else if w = "propertyIsEnumerable".data then
    some "function propertyIsEnumerable() \x7b [native code] \x7d".data
  else if w = "toLocaleString".data then
    some "function toLocaleString() \x7b [native code] \x7d".data
  else if w = "toString".data then
    some "function toString() \x7b [native code] \x7d".data
  else if w = "valueOf".data then
    some "function valueOf() \x7b [native code] \x7d".data
  else if w = "__defineGetter__".data then
    some "function __defineGetter__() \x7b [native code] \x7d".data
  else if w = "__defineSetter__".data then
    some "function __defineSetter__() \x7b [native code] \x7d".data
  else if w = "__lookupGetter__".data then
    some "function __lookupGetter__() \x7b [native code] \x7d".data
  else if w = "__lookupSetter__".data then
    some "function __lookupSetter__() \x7b [native code] \x7d".data
  else none

/-- The own-property value stored at `w`, if any. -/
def readOwn : JsFreqTable → Str → Option JsVal
  | [], _ => none
  | (k, v) :: rest, w => if k = w then some v else readOwn rest w

/-- Plain own-property update: existing key in place, new key appended. -/
def setOwn : JsFreqTable → Str → JsVal → JsFreqTable
  | [], w, v => [(w, v)]
  | (k, u) :: rest, w, v =>
    if k = w then (k, v) :: rest else (k, u) :: setOwn rest w v

/-- `obj[w] = v` on a fresh-layout object: a primitive assigned to
`__proto__` is consumed by the inherited accessor and stores nothing
(only an object value would change the prototype, and this flow assigns
primitives only); every other key is an ordinary own-property write. -/
def writeJS (tbl : JsFreqTable) (w : Str) (v : JsVal) : JsFreqTable :=
  if w = "__proto__".data then tbl else setOwn tbl w v

/-- `combined[word] = (combined[word] || 0) + v` with real `\x7b\x7d`
semantics: an own property is used if truthy; an absent key falls through
to the inherited member, whose string form turns `+` into concatenation;
otherwise the read is `undefined` and `|| 0` saves the sum. -/
def addCountJS (tbl : JsFreqTable) (w : Str) (v : JsVal) : JsFreqTable :=
  let base : JsVal :=
    match readOwn tbl w with
    | some u => if jsTruthy u then u else .num 0
    | none =>
      match protoStr w with
      | some s => .str s
      | none => .num 0
  writeJS tbl w (jsAdd base v)

/-- `frequency[word] = (frequency[word] || 0) + 1` with real `\x7b\x7d`
semantics: the same read-modify-write with the number `1`. -/
def bumpJS (tbl : JsFreqTable) (w : Str) : JsFreqTable :=
  addCountJS tbl w (.num 1)

/-- `countWordFrequency` with real `\x7b\x7d` semantics. -/
def countWordFrequencyJS (words : List Str) : JsFreqTable :=
  words.foldl bumpJS []

/-- `combineFrequencies` with real `\x7b\x7d` semantics; the values fed in
are whatever `Object.entries` of the per-document tables produced. -/
def combineFrequenciesJS (freqs : List JsFreqTable) : JsFreqTable :=
  freqs.foldl
    (fun combined freq => freq.foldl (fun acc p => addCountJS acc p.1 p.2) combined) []

/-! ## Frequency-table lemmas -/

@[simp]
theorem keys_nil : keys [] = [] := rfl

@[simp]
theorem keys_cons (k : Str) (v : Nat) (rest : FreqTable) :
    keys ((k, v) :: rest) = k :: keys rest := rfl

theorem getCount_addCount (tbl : FreqTable) (w x : Str) (c : Nat) :
    getCount (addCount tbl w c) x = getCount tbl x + (if x = w then c else 0) := by
  induction tbl with
  | nil =>
    by_cases h : w = x
    · subst h; simp [addCount, getCount]
    · have h2 : ¬x = w := fun hh => h hh.symm
      simp [addCount, getCount, h, h2]
  | cons head rest ih =>
    obtain ⟨k, v⟩ := head
    by_cases hk : k = w
    · subst hk
      by_cases hx : k = x
      · subst hx; simp [addCount, getCount]
      · have h2 : ¬x = k := fun hh => hx hh.symm
        simp [addCount, getCount, hx, h2]
    · by_cases hx : k = x
      · subst hx; simp [addCount, getCount, hk]
      · simp [addCount, getCount, hk, hx, ih]

theorem getCount_bump (tbl : FreqTable) (w x : Str) :
    getCount (bump tbl w) x = getCount tbl x + (if x = w then 1 else 0) := by
  induction tbl with
  | nil =>
    by_cases h : w = x
    · subst h; simp [bump, getCount]
    · have h2 : ¬x = w := fun hh => h hh.symm
      simp [bump, getCount, h, h2]
  | cons head rest ih =>
    obtain ⟨k, v⟩ := head
    by_cases hk : k = w
    · subst hk
      by_cases hx : k = x
      · subst hx; simp [bump, getCount]
      · have h2 : ¬x = k := fun hh => hx hh.symm
        simp [bump, getCount, hx, h2]
    · by_cases hx : k = x
      · subst hx; simp [bump, getCount, hk]
      · simp [bump, getCount, hk, hx, ih]

theorem getCount_foldl_bump (ws : List Str) (x : Str) :
    ∀ tbl : FreqTable, getCount (ws.foldl bump tbl) x = getCount tbl x + ws.count x := by
  induction ws with
  | nil => intro tbl; simp
  | cons a tail ih =>
    intro tbl
    rw [List.foldl_cons, ih, getCount_bump, List.count_cons]
    by_cases h : x = a
    · subst h; simp only [beq_self_eq_true, if_pos rfl, if_true]; omega
    · have hba : ((a == x) = true) → x = a := fun hh => (eq_of_beq hh).symm
      rw [if_neg h, if_neg (fun hh => h (hba hh))]
      omega

/-- `countWordFrequency` stores exactly the number of occurrences of each
word in the input sequence. -/
theorem getCount_countWordFrequency (ws : List Str) (x : Str) :
    getCount (countWordFrequency ws) x = ws.count x := by
  rw [countWordFrequency, getCount_foldl_bump]
  simp [getCount]

theorem keys_addCount (tbl : FreqTable) (w : Str) (c : Nat) :
    keys (addCount tbl w c) = if w ∈ keys tbl then keys tbl else keys tbl ++ [w] := by
  induction tbl with
  | nil => simp [addCount]
  | cons head rest ih =>
    obtain ⟨k, v⟩ := head
    by_cases hk : k = w
    · subst hk; simp [addCount]
    · have hwk : ¬w = k := fun hh => hk hh.symm
      simp only [addCount, if_neg hk, keys_cons, List.mem_cons, ih]
      by_cases hmem : w ∈ keys rest
      · simp [hmem]
      · simp [hmem, hwk]

theorem keys_bump (tbl : FreqTable) (w : Str) :
    keys (bump tbl w) = if w ∈ keys tbl then keys tbl else keys tbl ++ [w] := by
  induction tbl with
  | nil => simp [bump]
  | cons head rest ih =>
    obtain ⟨k, v⟩ := head
    by_cases hk : k = w
    · subst hk; simp [bump]
    · have hwk : ¬w = k := fun hh => hk hh.symm
      simp only [bump, if_neg hk, keys_cons, List.mem_cons, ih]
      by_cases hmem : w ∈ keys rest
      · simp [hmem]
      · simp [hmem, hwk]

theorem nodup_keys_bump (tbl : FreqTable) (w : Str) (h : (keys tbl).Nodup) :
    (keys (bump tbl w)).Nodup := by
  rw [keys_bump]
  by_cases hmem : w ∈ keys tbl
  · simpa [hmem] using h
  · simp only [if_neg hmem, List.nodup_append]
    refine ⟨h, List.nodup_singleton w, ?_⟩
    intro a ha hb
    have haw : a = w := by simpa using hb
    subst haw
    exact hmem ha

theorem nodup_keys_foldl_bump (ws : List Str) :
    ∀ tbl : FreqTable, (keys tbl).Nodup → (keys (ws.foldl bump tbl)).Nodup := by
  induction ws with
  | nil => intro tbl h; simpa using h
  | cons a ws ih => intro tbl h; exact ih _ (nodup_keys_bump tbl a h)

/-- The keys of a per-document frequency table are distinct, as they are
for any JS object. -/
theorem nodup_keys_countWordFrequency (ws : List Str) :
    (keys (countWordFrequency ws)).Nodup :=
  nodup_keys_foldl_bump ws [] (by simp [keys])

theorem pos_counts_bump (tbl : FreqTable) (w : Str)
    (h : ∀ p ∈ tbl, 1 ≤ p.2) : ∀ p ∈ bump tbl w, 1 ≤ p.2 := by
  induction tbl with
  | nil => intro p hp; simp [bump] at hp; subst hp; exact Nat.le_refl 1
  | cons head rest ih =>
    obtain ⟨k, v⟩ := head
    intro p hp
    by_cases hk : k = w
    · subst hk
      simp [bump] at hp
      rcases hp with hp | hp
      · subst hp; exact Nat.le_add_left 1 v
      · exact h p (List.mem_cons_of_mem _ hp)
    · simp [bump, hk] at hp
      rcases hp with hp | hp
      · subst hp; exact h (k, v) (List.mem_cons_self _ _)
      · exact ih (fun q hq => h q (List.mem_cons_of_mem _ hq)) p hp

theorem pos_counts_foldl_bump (ws : List Str) :
    ∀ tbl : FreqTable, (∀ p ∈ tbl, 1 ≤ p.2) →
      ∀ p ∈ ws.foldl bump tbl, 1 ≤ p.2 := by
  induction ws with
  | nil => intro tbl h; simpa using h
  | cons a ws ih => intro tbl h; exact ih _ (pos_counts_bump tbl a h)

/-- Every stored count is at least one. -/
theorem pos_counts_countWordFrequency (ws : List Str) :
    ∀ p ∈ countWordFrequency ws, 1 ≤ p.2 :=
  pos_counts_foldl_bump ws [] (by simp)

theorem sum_counts_bump (tbl : FreqTable) (w : Str) :
    ((bump tbl w).map Prod.snd).sum = (tbl.map Prod.snd).sum + 1 := by
  induction tbl with
  | nil => simp [bump]
  | cons head rest ih =>
    obtain ⟨k, v⟩ := head
    by_cases hk : k = w
    · subst hk; simp [bump]; omega
    · simp [bump, hk, ih]; omega

theorem sum_counts_foldl_bump (ws : List Str) :
    ∀ tbl : FreqTable,
      ((ws.foldl bump tbl).map Prod.snd).sum = (tbl.map Prod.snd).sum + ws.length := by
  induction ws with
  | nil => intro tbl; simp
  | cons a ws ih => intro tbl; rw [List.foldl_cons, ih, sum_counts_bump]; simp; omega

/-- The counts in a per-document table sum to the token count. -/
theorem sum_counts_countWordFrequency (ws : List Str) :
    ((countWordFrequency ws).map Prod.snd).sum = ws.length := by
  rw [countWordFrequency, sum_counts_foldl_bump]; simp

theorem getCount_mergeTable (tbl : FreqTable) (x : Str) :
    ∀ acc : FreqTable, getCount (mergeTable acc tbl) x = getCount acc x + entrySum tbl x := by
  induction tbl with
  | nil => intro acc; simp [mergeTable, entrySum]
  | cons p rest ih =>
    intro acc
    obtain ⟨k, v⟩ := p
    have step : mergeTable acc ((k, v) :: rest) = mergeTable (addCount acc k v) rest := rfl
    rw [step, ih, getCount_addCount]
    simp only [entrySum, List.map_cons, List.sum_cons]
    by_cases hk : k = x
    · subst hk; simp; omega
    · have h2 : ¬x = k := fun hh => hk hh.symm
      simp [hk, h2]

theorem getCount_foldl_mergeTable (fs : List FreqTable) (x : Str) :
    ∀ acc : FreqTable,
      getCount (fs.foldl mergeTable acc) x
        = getCount acc x + (fs.map (fun f => entrySum f x)).sum := by
  induction fs with
  | nil => intro acc; simp
  | cons f rest ih =>
    intro acc
    rw [List.foldl_cons, ih, getCount_mergeTable]
    simp only [List.map_cons, List.sum_cons]
    omega

/-- `combineFrequencies` is the additive merge: the count it stores for a
word is the sum of what each input table stores for it. -/
theorem getCount_combineFrequencies (fs : List FreqTable) (x : Str) :
    getCount (combineFrequencies fs) x = (fs.map (fun f => entrySum f x)).sum := by
  rw [combineFrequencies, getCount_foldl_mergeTable]
  simp [getCount]

theorem entrySum_eq_zero_of_not_mem (tbl : FreqTable) (x : Str)
    (h : x ∉ keys tbl) : entrySum tbl x = 0 := by
  induction tbl with
  | nil => simp [entrySum]
  | cons p rest ih =>
    obtain ⟨k, v⟩ := p
    simp only [keys_cons, List.mem_cons] at h
    push_neg at h
    have hk : ¬k = x := fun hh => h.1 hh.symm
    simp only [entrySum, List.map_cons, List.sum_cons, if_neg hk]
    simpa [entrySum] using ih h.2

/-- On a table with distinct keys — any table a JS object can hold — the
entry sum at a key is the stored count. -/
theorem entrySum_eq_getCount (tbl : FreqTable) (x : Str)
    (h : (keys tbl).Nodup) : entrySum tbl x = getCount tbl x := by
  induction tbl with
  | nil => simp [entrySum, getCount]
  | cons p rest ih =>
    obtain ⟨k, v⟩ := p
    simp only [keys_cons, List.nodup_cons] at h
    by_cases hk : k = x
    · subst hk
      have hzero : entrySum rest k = 0 := entrySum_eq_zero_of_not_mem rest k h.1
      simp only [entrySum, List.map_cons, List.sum_cons, if_pos rfl, getCount]
      simpa [entrySum] using hzero
    · simp only [entrySum, List.map_cons, List.sum_cons, if_neg hk, getCount, hk]
      simpa [entrySum] using ih h.2

theorem mem_keys_addCount (acc : FreqTable) (w x : Str) (c : Nat)
    (h : x ∈ keys (addCount acc w c)) : x ∈ keys acc ∨ x = w := by
  rw [keys_addCount] at h
  by_cases hmem : w ∈ keys acc
  · rw [if_pos hmem] at h; exact Or.inl h
  · rw [if_neg hmem] at h
    rcases List.mem_append.mp h with h | h
    · exact Or.inl h
    · right; simpa using h

theorem mem_keys_mergeTable (tbl : FreqTable) (x : Str) :
    ∀ acc : FreqTable, x ∈ keys (mergeTable acc tbl) → x ∈ keys acc ∨ x ∈ keys tbl := by
  induction tbl with
  | nil => intro acc h; exact Or.inl h
  | cons p rest ih =>
    intro acc h
    obtain ⟨k, v⟩ := p
    have step : mergeTable acc ((k, v) :: rest) = mergeTable (addCount acc k v) rest := rfl
    rw [step] at h
    rcases ih (addCount acc k v) h with h | h
    · rcases mem_keys_addCount acc k x v h with h | h
      · exact Or.inl h
      · right; simp [h]
    · right; simp [h]

/-- No word appears in the combined table that appears in no input table. -/
theorem mem_keys_combineFrequencies (fs : List FreqTable) (x : Str)
    (h : x ∈ keys (combineFrequencies fs)) : ∃ f ∈ fs, x ∈ keys f := by
  rw [combineFrequencies] at h
  suffices step : ∀ acc : FreqTable, x ∈ keys (fs.foldl mergeTable acc) →
      x ∈ keys acc ∨ ∃ f ∈ fs, x ∈ keys f by
    rcases step [] h with hh | hh
    · simp at hh
    · exact hh
  clear h
  induction fs with
  | nil => intro acc h; exact Or.inl h
  | cons f rest ih =>
    intro acc h
    rw [List.foldl_cons] at h
    rcases ih (mergeTable acc f) h with hh | hh
    · rcases mem_keys_mergeTable f x acc hh with hh | hh
      · exact Or.inl hh
      · exact Or.inr ⟨f, List.mem_cons_self _ _, hh⟩
    · obtain ⟨g, hg, hxg⟩ := hh
      exact Or.inr ⟨g, List.mem_cons_of_mem _ hg, hxg⟩

/-! ## Ranking lemmas -/

theorem insertRanked_perm (x : RankedWord) (l : List RankedWord) :
    List.Perm (insertRanked x l) (x :: l) := by
  induction l with
  | nil => exact List.Perm.refl _
  | cons y ys ih =>
    by_cases h : x.count < y.count
    · simp only [insertRanked, if_pos h]
      exact (ih.cons y).trans (List.Perm.swap x y ys)
    · simp only [insertRanked, if_neg h]
      exact List.Perm.refl _

theorem sortByCountDesc_perm (l : List RankedWord) :
    List.Perm (sortByCountDesc l) l := by
  induction l with
  | nil => exact List.Perm.refl _
  | cons x xs ih =>
    have step : sortByCountDesc (x :: xs) = insertRanked x (sortByCountDesc xs) := rfl
    rw [step]
    exact (insertRanked_perm x (sortByCountDesc xs)).trans (ih.cons x)

theorem length_sortByCountDesc (l : List RankedWord) :
    (sortByCountDesc l).length = l.length :=
  (sortByCountDesc_perm l).length_eq

theorem sorted_insertRanked (x : RankedWord) (l : List RankedWord)
    (h : l.Pairwise countGE) : (insertRanked x l).Pairwise countGE := by
  induction l with
  | nil => simp [insertRanked]
  | cons y ys ih =>
    rw [List.pairwise_cons] at h
    by_cases hlt : x.count < y.count
    · simp only [insertRanked, if_pos hlt]
      rw [List.pairwise_cons]
      refine ⟨?_, ih h.2⟩
      intro b hb
      have hb2 : b ∈ x :: ys := (insertRanked_perm x ys).mem_iff.mp hb
      rcases List.mem_cons.mp hb2 with hbx | hbys
      · subst hbx; exact Nat.le_of_lt hlt
      · exact h.1 b hbys
    · simp only [insertRanked, if_neg hlt]
      rw [List.pairwise_cons]
      refine ⟨?_, List.pairwise_cons.mpr h⟩
      intro b hb
      rcases List.mem_cons.mp hb with hbx | hbys
      · subst hbx; exact Nat.le_of_not_lt hlt
      · exact Nat.le_trans (h.1 b hbys) (Nat.le_of_not_lt hlt)

/-- The stable insertion sort is sorted descending by count. -/
theorem sorted_sortByCountDesc (l : List RankedWord) :
    (sortByCountDesc l).Pairwise countGE := by
  induction l with
  | nil => simp [sortByCountDesc]
  | cons x xs ih => exact sorted_insertRanked x (sortByCountDesc xs) ih

theorem filter_insertRanked (x : RankedWord) (c : Nat) (l : List RankedWord) :
    (insertRanked x l).filter (fun p => p.count == c)
      = if x.count = c then x :: l.filter (fun p => p.count == c)
        else l.filter (fun p => p.count == c) := by
  induction l with
  | nil => by_cases h : x.count = c <;> simp [insertRanked, h]
  | cons y ys ih =>
    by_cases hlt : x.count < y.count
    · simp only [insertRanked, if_pos hlt, List.filter_cons]
      by_cases hy : y.count = c
      · have hx : ¬x.count = c := fun hh => Nat.lt_irrefl _ (hh ▸ hy ▸ hlt)
        simp only [if_neg hx] at ih ⊢
        simp [hy, ih]
      · simp only [List.filter_cons, ih]
        by_cases hx : x.count = c <;> simp [hx, hy]
    · simp only [insertRanked, if_neg hlt, List.filter_cons]
      by_cases hx : x.count = c <;> simp [hx, List.filter_cons]

/-- Stability: sorting never reorders entries of equal count, so the
subsequence at each count value is exactly the enumeration-order
subsequence. -/
theorem filter_sortByCountDesc (l : List RankedWord) (c : Nat) :
    (sortByCountDesc l).filter (fun p => p.count == c)
      = l.filter (fun p => p.count == c) := by
  induction l with
  | nil => rfl
  | cons x xs ih =>
    have step : sortByCountDesc (x :: xs) = insertRanked x (sortByCountDesc xs) := rfl
    rw [step, filter_insertRanked, ih, List.filter_cons]
    by_cases hx : x.count = c <;> simp [hx]

theorem filter_take_sortByCountDesc (l : List RankedWord) (k : Nat) (c : Nat) :
    ((sortByCountDesc l).take k).filter (fun p => p.count == c)
      <+: l.filter (fun p => p.count == c) := by
  have h1 := List.IsPrefix.filter (fun p => p.count == c)
    ( List.take_prefix k (sortByCountDesc l))
  rw [filter_sortByCountDesc] at h1
  exact h1

theorem mem_jsSlice {α : Type} (l : List α) (n : Int) (x : α)
    (h : x ∈ jsSlice l n) : x ∈ l := by
  unfold jsSlice at h
  split at h <;> exact List.mem_of_mem_take h

/-- Every ranked pair returned by `getTopWords` is an entry of the input
table. -/
theorem mem_getTopWords (freq : FreqTable) (n : Int) (p : RankedWord)
    (h : p ∈ getTopWords freq n) : (p.word, p.count) ∈ freq := by
  have h1 : p ∈ sortByCountDesc (freq.map fun q => ⟨q.1, q.2⟩) := mem_jsSlice _ _ _ h
  have h2 : p ∈ freq.map (fun q => (⟨q.1, q.2⟩ : RankedWord)) :=
    (sortByCountDesc_perm _).mem_iff.mp h1
  obtain ⟨q, hq, hqe⟩ := List.mem_map.mp h2
  cases hqe
  simpa using hq

/-- `getTopWords` output is sorted descending by count. -/
theorem sorted_getTopWords (freq : FreqTable) (n : Int) :
    (getTopWords freq n).Pairwise countGE := by
  unfold getTopWords jsSlice
  have hs := sorted_sortByCountDesc (freq.map fun q => (⟨q.1, q.2⟩ : RankedWord))
  split <;> exact List.Pairwise.sublist (List.take_sublist _ _) hs

/-- `getTopWords` stability, after truncation: at each count value the
output is a leading fragment of the table's enumeration order. -/
theorem filter_getTopWords (freq : FreqTable) (n : Int) (c : Nat) :
    (getTopWords freq n).filter (fun p => p.count == c)
      <+: (freq.map (fun q => (⟨q.1, q.2⟩ : RankedWord))).filter (fun p => p.count == c) := by
  unfold getTopWords jsSlice
  split <;> exact filter_take_sortByCountDesc _ _ _

theorem length_getTopWords_nonneg (freq : FreqTable) (n : Int) (h : 0 ≤ n) :
    (getTopWords freq n).length = min n.toNat freq.length := by
  unfold getTopWords jsSlice
  rw [if_neg (not_lt.mpr h), List.length_take, length_sortByCountDesc, List.length_map]

theorem length_getTopWords_neg (freq : FreqTable) (n : Int) (h : n < 0) :
    (getTopWords freq n).length = freq.length - (-n).toNat := by
  unfold getTopWords jsSlice
  rw [if_pos h, List.length_take, length_sortByCountDesc, List.length_map]
  omega

/-! ## Normalizer lemmas -/

theorem toNat_ofNat_of_lt {n : Nat} (h : n < 55296) : (Char.ofNat n).toNat = n := by
  rw [Char.ofNat, dif_pos (Or.inl h)]
  simp [Char.ofNatAux, Char.toNat, UInt32.toNat, BitVec.toNat_ofNatLt]

/-- The basic-latin lowercasing map is idempotent. -/
theorem toLower_toLower (c : Char) : Char.toLower (Char.toLower c) = Char.toLower c := by
  simp only [Char.toLower]
  by_cases h : c.toNat ≥ 65 ∧ c.toNat ≤ 90
  · rw [if_pos h]
    have hv : (Char.ofNat (c.toNat + 32)).toNat = c.toNat + 32 := toNat_ofNat_of_lt (by omega)
    rw [if_neg (by rw [hv]; omega)]
  · rw [if_neg h, if_neg h]

theorem not_space_of_word (c : Char) (h : isWordChar c = true) : isSpaceChar c = false := by
  cases hsp : isSpaceChar c
  · rfl
  · exfalso
    unfold isSpaceChar at hsp
    simp only [Bool.or_eq_true, beq_iff_eq] at hsp
    rcases hsp with ((((rfl | rfl) | rfl) | rfl) | rfl) | rfl <;> exact absurd h (by decide)

theorem mem_collapseSpaces (l : Str) (c : Char) (h : c ∈ collapseSpaces l) :
    c = ' ' ∨ (c ∈ l ∧ isSpaceChar c = false) := by
  induction l with
  | nil => simp [collapseSpaces] at h
  | cons a rest ih =>
    cases rest with
    | nil =>
      simp only [collapseSpaces, List.mem_singleton] at h
      subst h
      cases hsa : isSpaceChar a with
      | true => left; simp [normSpace, hsa]
      | false =>
        right
        have hna : normSpace a = a := by simp [normSpace, hsa]
        rw [hna]
        exact ⟨List.mem_singleton_self a, hsa⟩
    | cons b rs =>
      by_cases hab : (isSpaceChar a && isSpaceChar b) = true
      · rw [show collapseSpaces (a :: b :: rs)
              = collapseSpaces (b :: rs) by rw [collapseSpaces, if_pos hab]] at h
        rcases ih h with h1 | h1
        · exact Or.inl h1
        · exact Or.inr ⟨List.mem_cons_of_mem a h1.1, h1.2⟩
      · rw [show collapseSpaces (a :: b :: rs)
              = normSpace a :: collapseSpaces (b :: rs) by
            rw [collapseSpaces, if_neg hab]] at h
        rcases List.mem_cons.mp h with h1 | h1
        · subst h1
          cases hsa : isSpaceChar a with
          | true => left; simp [normSpace, hsa]
          | false =>
            right
            have hna : normSpace a = a := by simp [normSpace, hsa]
            rw [hna]
            exact ⟨List.mem_cons_self a _, hsa⟩
        · rcases ih h1 with h2 | h2
          · exact Or.inl h2
          · exact Or.inr ⟨List.mem_cons_of_mem a h2.1, h2.2⟩

theorem head?_collapseSpaces_not_space (b : Char) (rs : Str)
    (hb : isSpaceChar b = false) : (collapseSpaces (b :: rs)).head? = some b := by
  cases rs with
  | nil => simp [collapseSpaces, normSpace, hb]
  | cons r rs' =>
    have hcond : (isSpaceChar b && isSpaceChar r) = false := by simp [hb]
    rw [show collapseSpaces (b :: r :: rs')
          = normSpace b :: collapseSpaces (r :: rs') by
        rw [collapseSpaces, if_neg (by simp [hcond])]]
    simp [normSpace, hb]

theorem chain_collapseSpaces (l : Str) :
    List.Chain' noTwoSpaces (collapseSpaces l) := by
  induction l with
  | nil => simp [collapseSpaces]
  | cons a rest ih =>
    cases rest with
    | nil => simp [collapseSpaces]
    | cons b rs =>
      by_cases hab : (isSpaceChar a && isSpaceChar b) = true
      · rw [show collapseSpaces (a :: b :: rs)
              = collapseSpaces (b :: rs) by rw [collapseSpaces, if_pos hab]]
        exact ih
      · rw [show collapseSpaces (a :: b :: rs)
              = normSpace a :: collapseSpaces (b :: rs) by
            rw [collapseSpaces, if_neg hab]]
        rw [List.chain'_cons']
        refine ⟨?_, ih⟩
        intro y hy
        by_cases hsa : isSpaceChar a = true
        · have hsb : isSpaceChar b = false := by
            cases hsbv : isSpaceChar b
            · rfl
            · exact absurd (by simp [hsa, hsbv]) hab
          rw [head?_collapseSpaces_not_space b rs hsb] at hy
          have hyb : b = y := by simpa using hy
          subst hyb
          exact fun hcon => absurd hcon.2 (by simp [hsb])
        · unfold normSpace
          rw [if_neg hsa]
          exact fun hcon => hsa hcon.1

theorem head?_dropWhile_not (p : Char → Bool) (l : Str) (a : Char)
    (h : (l.dropWhile p).head? = some a) : p a = false := by
  induction l with
  | nil => simp at h
  | cons c rest ih =>
    by_cases hc : p c = true
    · rw [List.dropWhile_cons, if_pos hc] at h
      exact ih h
    · rw [List.dropWhile_cons, if_neg hc] at h
      have hac : a = c := by simpa using h.symm
      subst hac
      simpa using hc

theorem chain'_dropWhile {R : Char → Char → Prop} (p : Char → Bool) (l : Str)
    (h : List.Chain' R l) : List.Chain' R (l.dropWhile p) := by
  induction l with
  | nil => simp
  | cons c rest ih =>
    by_cases hc : p c = true
    · rw [List.dropWhile_cons, if_pos hc]
      exact ih h.tail
    · rw [List.dropWhile_cons, if_neg hc]
      exact h

theorem chain'_reverse_noTwoSpaces (l : Str) (h : List.Chain' noTwoSpaces l) :
    List.Chain' noTwoSpaces l.reverse := by
  rw [List.chain'_reverse]
  exact List.Chain'.imp (fun a b hab hc => hab ⟨hc.2, hc.1⟩) h

theorem chain'_trimChars (l : Str) (h : List.Chain' noTwoSpaces l) :
    List.Chain' noTwoSpaces (trimChars l) := by
  unfold trimChars
  exact chain'_reverse_noTwoSpaces _
    (chain'_dropWhile _ _ (chain'_reverse_noTwoSpaces _ (chain'_dropWhile _ _ h)))

theorem mem_trimChars (l : Str) (c : Char) (h : c ∈ trimChars l) : c ∈ l := by
  unfold trimChars at h
  rw [List.mem_reverse] at h
  have h1 := (List.dropWhile_sublist _).subset h
  rw [List.mem_reverse] at h1
  exact (List.dropWhile_sublist _).subset h1

theorem mem_of_head? {α : Type} {l : List α} {a : α} (h : l.head? = some a) : a ∈ l := by
  cases l with
  | nil => simp at h
  | cons c rest =>
    have hac : c = a := by simpa using h
    subst hac
    exact List.mem_cons_self _ _

theorem getLast?_of_suffix_ne_nil {α : Type} {l B : List α}
    (h : B <:+ l) (hB : B ≠ []) : l.getLast? = B.getLast? := by
  obtain ⟨t, rfl⟩ := h
  rw [List.getLast?_append]
  cases hBl : B.getLast? with
  | none => exact absurd (List.getLast?_eq_none_iff.mp hBl) hB
  | some b => simp

theorem head?_trimChars_not_space (l : Str) (a : Char)
    (h : (trimChars l).head? = some a) : isSpaceChar a = false := by
  unfold trimChars at h
  rw [List.head?_reverse] at h
  have hBne : ((l.dropWhile isSpaceChar).reverse.dropWhile isSpaceChar) ≠ [] := by
    intro hh
    rw [hh] at h
    simp at h
  have hsuf := List.dropWhile_suffix (l := (l.dropWhile isSpaceChar).reverse) isSpaceChar
  have hrev : (l.dropWhile isSpaceChar).reverse.getLast? = some a :=
    (getLast?_of_suffix_ne_nil hsuf hBne).trans h
  rw [List.getLast?_reverse] at hrev
  exact head?_dropWhile_not isSpaceChar l a hrev

theorem getLast?_trimChars_not_space (l : Str) (a : Char)
    (h : (trimChars l).getLast? = some a) : isSpaceChar a = false := by
  unfold trimChars at h
  rw [List.getLast?_reverse] at h
  exact head?_dropWhile_not isSpaceChar _ a h

theorem dropWhile_eq_self_of_head (p : Char → Bool) (l : Str)
    (h : ∀ a, l.head? = some a → p a = false) : l.dropWhile p = l := by
  cases l with
  | nil => rfl
  | cons c rest =>
    rw [List.dropWhile_cons, if_neg (by simp [h c rfl])]

theorem trimChars_eq_self (l : Str)
    (hh : ∀ a, l.head? = some a → isSpaceChar a = false)
    (hl : ∀ a, l.getLast? = some a → isSpaceChar a = false) : trimChars l = l := by
  unfold trimChars
  rw [dropWhile_eq_self_of_head _ _ hh]
  rw [dropWhile_eq_self_of_head _ _ (fun a ha => hl a (by rwa [List.head?_reverse] at ha))]
  exact List.reverse_reverse l

theorem collapseSpaces_eq_self (l : Str)
    (hchars : ∀ c ∈ l, normSpace c = c)
    (hchain : List.Chain' noTwoSpaces l) : collapseSpaces l = l := by
  induction l with
  | nil => rfl
  | cons a rest ih =>
    cases rest with
    | nil =>
      rw [show collapseSpaces [a] = [normSpace a] from rfl,
        hchars a (List.mem_singleton_self a)]
    | cons b rs =>
      have hno : ¬(isSpaceChar a = true ∧ isSpaceChar b = true) :=
        (List.chain'_cons.mp hchain).1
      have hcond : (isSpaceChar a && isSpaceChar b) = false := by
        cases ha : isSpaceChar a <;> cases hb : isSpaceChar b <;> simp_all
      rw [show collapseSpaces (a :: b :: rs)
            = normSpace a :: collapseSpaces (b :: rs) by
          rw [collapseSpaces, if_neg (by simp [hcond])]]
      rw [hchars a (List.mem_cons_self _ _),
        ih (fun c hc => hchars c (List.mem_cons_of_mem a hc)) hchain.tail]

/-- Characters of the normalizer's output are spaces or lowercase-stable
word characters. -/
theorem goodChar_of_mem_cleanText (s : Str) (c : Char) (h : c ∈ cleanText s) :
    goodChar c := by
  unfold cleanText at h
  by_cases hs : s.isEmpty
  · rw [if_pos hs] at h
    simp at h
  · rw [if_neg hs] at h
    have h1 := mem_trimChars _ _ h
    rcases mem_collapseSpaces _ _ h1 with h2 | h2
    · exact Or.inl h2
    · obtain ⟨hmem, hnsp⟩ := h2
      obtain ⟨e, he, hed⟩ := List.mem_map.mp hmem
      subst hed
      obtain ⟨f, _, hfe⟩ := List.mem_map.mp he
      subst hfe
      right
      unfold keepWordChar at hnsp ⊢
      by_cases hk : (isWordChar (Char.toLower f) || isSpaceChar (Char.toLower f)) = true
      · rw [if_pos hk] at hnsp ⊢
        have hw : isWordChar (Char.toLower f) = true := by
          simp only [hnsp, Bool.or_false] at hk
          exact hk
        exact ⟨hw, toLower_toLower f, hnsp⟩
      · rw [if_neg hk] at hnsp
        exact absurd hnsp (by decide)

theorem chain_cleanText (s : Str) : List.Chain' noTwoSpaces (cleanText s) := by
  unfold cleanText
  by_cases hs : s.isEmpty
  · rw [if_pos hs]; simp
  · rw [if_neg hs]
    exact chain'_trimChars _ (chain_collapseSpaces _)

/-- Normalizing a second time changes nothing. -/
theorem cleanText_idempotent (s : Str) : cleanText (cleanText s) = cleanText s := by
  by_cases hempty : (cleanText s).isEmpty
  · have hnil : cleanText s = [] := by
      cases hcs : cleanText s
      · rfl
      · rw [hcs] at hempty; simp at hempty
    rw [hnil]
    rfl
  · have hgood : ∀ c ∈ cleanText s, goodChar c := goodChar_of_mem_cleanText s
    rw [show cleanText (cleanText s)
          = trimChars (collapseSpaces (((cleanText s).map Char.toLower).map keepWordChar)) by
        rw [cleanText, if_neg hempty]]
    have h1 : (cleanText s).map Char.toLower = cleanText s := by
      have := List.map_congr_left (l := cleanText s) (f := Char.toLower) (g := id) ?_
      · rw [this, List.map_id]
      · intro c hc
        rcases hgood c hc with rfl | hc2
        · decide
        · exact hc2.2.1
    have h2 : (cleanText s).map keepWordChar = cleanText s := by
      have := List.map_congr_left (l := cleanText s) (f := keepWordChar) (g := id) ?_
      · rw [this, List.map_id]
      · intro c hc
        rcases hgood c hc with rfl | hc2
        · decide
        · unfold keepWordChar
          rw [if_pos (by simp [hc2.1])]
          rfl
    have h3 : collapseSpaces (cleanText s) = cleanText s := by
      apply collapseSpaces_eq_self
      · intro c hc
        rcases hgood c hc with rfl | hc2
        · decide
        · unfold normSpace
          rw [if_neg (by simp [hc2.2.2])]
      · exact chain_cleanText s
    have h4 : trimChars (cleanText s) = cleanText s := by
      apply trimChars_eq_self
      · intro a ha
        have hmem : a ∈ cleanText s := mem_of_head? ha
        -- the head of a trimmed list is never a space
        cases hcs : cleanText s with
        | nil => rw [hcs] at ha; simp at ha
        | cons c rest =>
          rw [cleanText] at ha
          by_cases hs : s.isEmpty
          · rw [if_pos hs] at ha; simp at ha
          · rw [if_neg hs] at ha
            exact head?_trimChars_not_space _ a ha
      · intro a ha
        rw [cleanText] at ha
        by_cases hs : s.isEmpty
        · rw [if_pos hs] at ha; simp at ha
        · rw [if_neg hs] at ha
          exact getLast?_trimChars_not_space _ a ha
    rw [h1, h2, h3, h4]

/-! ## Tokenizer lemmas -/

theorem mem_of_getLast? {α : Type} {l : List α} {a : α} (h : l.getLast? = some a) :
    a ∈ l := by
  have hrev : l.reverse.head? = some a := by rw [List.head?_reverse]; exact h
  have := mem_of_head? hrev
  rwa [List.mem_reverse] at this

/-- Split pieces never contain a whitespace character. -/
theorem no_space_of_mem_splitOnSpaces (l : Str) (w : Str)
    (h : w ∈ splitOnSpaces l) : ∀ c ∈ w, isSpaceChar c = false := by
  induction l generalizing w with
  | nil =>
    simp only [splitOnSpaces, List.mem_singleton] at h
    subst h
    intro c hc
    simp at hc
  | cons c rest ih =>
    by_cases hsp : isSpaceChar c = true
    · rw [show splitOnSpaces (c :: rest) = [] :: splitOnSpaces rest by
          rw [splitOnSpaces, if_pos hsp]] at h
      rcases List.mem_cons.mp h with h1 | h1
      · subst h1; intro d hd; simp at hd
      · exact ih w h1
    · have hspf : isSpaceChar c = false := by simpa using hsp
      cases hsplit : splitOnSpaces rest with
      | nil =>
        rw [show splitOnSpaces (c :: rest) = [[c]] by
            rw [splitOnSpaces, if_neg hsp, hsplit]] at h
        have hw : w = [c] := by simpa using h
        subst hw
        intro d hd
        have hdc : d = c := by simpa using hd
        subst hdc
        exact hspf
      | cons w' ws' =>
        rw [show splitOnSpaces (c :: rest) = (c :: w') :: ws' by
            rw [splitOnSpaces, if_neg hsp, hsplit]] at h
        rcases List.mem_cons.mp h with h1 | h1
        · subst h1
          intro d hd
          rcases List.mem_cons.mp hd with hdc | hdw
          · subst hdc; exact hspf
          · exact ih w' (by rw [hsplit]; exact List.mem_cons_self _ _) d hdw
        · exact ih w (by rw [hsplit]; exact List.mem_cons_of_mem _ h1)

theorem trimChars_eq_self_of_no_space (w : Str)
    (h : ∀ c ∈ w, isSpaceChar c = false) : trimChars w = w :=
  trimChars_eq_self w (fun a ha => h a (mem_of_head? ha))
    (fun a ha => h a (mem_of_getLast? ha))

/-- Membership in `extractWords` output, characterized: a token of the
normalized text that is at least three characters, not a stop word, and
not all digits. -/
theorem mem_extractWords_iff (t : Str) (w : Str) :
    w ∈ extractWords t ↔
      w ∈ splitOnSpaces (cleanText t) ∧ 3 ≤ w.length
        ∧ w ∉ stopWords ∧ isAllDigits w = false := by
  unfold extractWords
  by_cases hclean : (cleanText t).isEmpty
  · rw [if_pos hclean]
    have hnil : cleanText t = [] := by
      cases hcs : cleanText t
      · rfl
      · rw [hcs] at hclean; simp at hclean
    simp only [List.not_mem_nil, false_iff]
    intro hcon
    rw [hnil] at hcon
    have hw : w = [] := by simpa [splitOnSpaces] using hcon.1
    subst hw
    simp at hcon
  · rw [if_neg hclean]
    simp only [List.mem_filter, decide_eq_true_eq, Bool.not_eq_true']
    constructor
    · rintro ⟨⟨⟨⟨hmem, hlen⟩, hstop⟩, hdig⟩, _⟩
      refine ⟨hmem, hlen, ?_, hdig⟩
      intro hcon
      have hc2 : stopWords.contains w = true := by
        rw [List.contains_eq_any_beq]
        simp only [List.any_eq_true]
        exact ⟨w, hcon, by simp⟩
      rw [hc2] at hstop
      exact absurd hstop (by decide)
    · rintro ⟨hmem, hlen, hstop, hdig⟩
      have hnosp := no_space_of_mem_splitOnSpaces _ _ hmem
      refine ⟨⟨⟨⟨hmem, hlen⟩, ?_⟩, hdig⟩, ?_⟩
      · rw [List.contains_eq_any_beq]
        cases hv : stopWords.any (fun x => w == x) with
        | false => rfl
        | true =>
          exfalso
          rw [List.any_eq_true] at hv
          obtain ⟨x, hx, hxw⟩ := hv
          have hwx : w = x := by simpa using hxw
          exact hstop (hwx ▸ hx)
      · rw [trimChars_eq_self_of_no_space w hnosp]
        omega

/-! ## Report lemmas -/

theorem isInfix_of_eq_append {α : Type} {L u mid v : List α}
    (h : L = u ++ (mid ++ v)) : mid <:+: L :=
  ⟨u, v, by rw [h]; simp [List.append_assoc]⟩

theorem articleEntry_infix (now : Str) (topWords : List RankedWord)
    (analysis : BatchAnalysisResult) (i : Nat) (a : Document)
    (h : analysis.articles[i]? = some a) :
    articleEntry i a <:+: generateFileContent now topWords analysis := by
  have hmem : articleEntry i a
      ∈ analysis.articles.enum.map (fun p => articleEntry p.1 p.2) :=
    List.mem_map.mpr ⟨(i, a), List.mem_enum_iff_getElem?.mpr h, rfl⟩
  have h1 : articleEntry i a
      <:+: (analysis.articles.enum.map (fun p => articleEntry p.1 p.2)).flatten :=
    List.infix_of_mem_flatten hmem
  refine h1.trans (isInfix_of_eq_append (u :=
    "Word Frequency Analysis Results\n===============================\n\n".data
      ++ ("Analysis Date: ".data ++ (now ++ ("\n".data
      ++ ("Articles Analyzed: ".data ++ (natStr analysis.articles.length
      ++ ("\n\n".data ++ "Articles:\n".data)))))))
    (v :=
      "Top 5 Most Repeated Words Across All Articles:\n".data
        ++ ("==============================================\n".data
        ++ ((topWords.enum.map (fun p => topEntry p.1 p.2)).flatten
        ++ "\n\nGenerated by Haci Arpaci\n".data))) ?_)
  simp [generateFileContent, List.append_assoc]

theorem topEntry_infix (now : Str) (topWords : List RankedWord)
    (analysis : BatchAnalysisResult) (i : Nat) (x : RankedWord)
    (h : topWords[i]? = some x) :
    topEntry i x <:+: generateFileContent now topWords analysis := by
  have hmem : topEntry i x ∈ topWords.enum.map (fun p => topEntry p.1 p.2) :=
    List.mem_map.mpr ⟨(i, x), List.mem_enum_iff_getElem?.mpr h, rfl⟩
  have h1 : topEntry i x <:+: (topWords.enum.map (fun p => topEntry p.1 p.2)).flatten :=
    List.infix_of_mem_flatten hmem
  refine h1.trans (isInfix_of_eq_append (u :=
    "Word Frequency Analysis Results\n===============================\n\n".data
      ++ ("Analysis Date: ".data ++ (now ++ ("\n".data
      ++ ("Articles Analyzed: ".data ++ (natStr analysis.articles.length
      ++ ("\n\n".data ++ ("Articles:\n".data
      ++ ((analysis.articles.enum.map (fun p => articleEntry p.1 p.2)).flatten
      ++ ("Top 5 Most Repeated Words Across All Articles:\n".data
      ++ "==============================================\n".data))))))))))
    (v := "\n\nGenerated by Haci Arpaci\n".data) ?_)
  simp [generateFileContent, List.append_assoc]

theorem isInfix_append_right {α : Type} (x post : List α) : x <:+: x ++ post :=
  ⟨[], post, by simp⟩

theorem isInfix_append_left {α : Type} (pre x : List α) : x <:+: pre ++ x :=
  ⟨pre, [], by simp⟩

/-- The report content, re-associated so that each required section is one
block of a right-nested append chain. -/
theorem generateFileContent_assoc (now : Str) (topWords : List RankedWord)
    (analysis : BatchAnalysisResult) :
    generateFileContent now topWords analysis
      = "Word Frequency Analysis Results\n===============================\n\n".data
        ++ (("Analysis Date: ".data ++ now ++ "\n".data)
        ++ (("Articles Analyzed: ".data ++ natStr analysis.articles.length ++ "\n\n".data)
        ++ ("Articles:\n".data
        ++ ((analysis.articles.enum.map (fun p => articleEntry p.1 p.2)).flatten
        ++ ("Top 5 Most Repeated Words Across All Articles:\n".data
        ++ ("==============================================\n".data
        ++ ((topWords.enum.map (fun p => topEntry p.1 p.2)).flatten
        ++ "\n\nGenerated by Haci Arpaci\n".data))))))) := by
  simp [generateFileContent, List.append_assoc]

/-! ## Claims -/

/-- C1 (counterexample): with a negative count neither operation raises
`InvalidArgument`; both calls return normally, `slice` treating the
negative bound as an offset from the end. -/
theorem c1_negative_count_returns_ok :
    getTopWordsCall [("fox".data, 2)] (-1) = .ok []
    ∧ analyzeMultipleArticlesCall [] (-2)
        = .ok { articles := [], combinedFrequency := [], topWords := [],
                totalArticles := 0 } :=
  ⟨rfl, rfl⟩

/-- C1 (amended): `getTopWords` and `analyzeMultipleArticles` never raise,
for any `N`, negative included; a negative `N` reaches `slice(0, N)`, which
drops the last `|N|` ranked entries, while a nonnegative `N` keeps the
first `min(N, table size)`. -/
theorem c1_no_invalid_argument_amended :
    ∀ (freq : FreqTable) (docs : List Document) (n : Int),
      (getTopWordsCall freq n).isOk = true
      ∧ (analyzeMultipleArticlesCall docs n).isOk = true
      ∧ (n < 0 → (getTopWords freq n).length = freq.length - (-n).toNat)
      ∧ (0 ≤ n → (getTopWords freq n).length = min n.toNat freq.length) :=
  fun freq _docs n =>
    ⟨rfl, rfl, length_getTopWords_neg freq n, length_getTopWords_nonneg freq n⟩

/-- C1 witness: the amended claim evaluated at concrete inputs. -/
theorem c1_no_invalid_argument_amended_witness :
    (getTopWords [("fox".data, 2), ("cat".data, 1)] (-1)).length = 2 - (-(-1) : Int).toNat
    ∧ (getTopWords [("fox".data, 2)] 5).length = min (5 : Int).toNat 1 := by
  refine ⟨?_, ?_⟩
  · exact (c1_no_invalid_argument_amended [("fox".data, 2), ("cat".data, 1)] [] (-1)).2.2.1
      (by decide)
  · exact (c1_no_invalid_argument_amended [("fox".data, 2)] [] 5).2.2.2 (by decide)

/-- In the intended dictionary semantics — the behaviour the source's own
documentation describes — the combined table of a batch maps each word to
the sum of the per-document counts for it (0 when absent), and contains
no word absent from every per-document table.  The real `\x7b\x7d` tables
break this on the `Object.prototype` member names (see
`c2_prototype_chain_breaks_conservation`). -/
theorem combined_frequency_conservation_intended :
    ∀ (docs : List Document) (n : Int) (w : Str),
      getCount (analyzeMultipleArticles docs n).combinedFrequency w
        = (docs.map (fun d => getCount (analyzeText (d.text.getD [])).frequency w)).sum
      ∧ (w ∈ keys (analyzeMultipleArticles docs n).combinedFrequency →
          ∃ d ∈ docs, w ∈ keys (analyzeText (d.text.getD [])).frequency) := by
  intro docs n w
  constructor
  · show getCount
        (combineFrequencies (docs.map fun d => (analyzeText (d.text.getD [])).frequency)) w
      = _
    rw [getCount_combineFrequencies, List.map_map]
    congr 1
    apply List.map_congr_left
    intro d _
    exact entrySum_eq_getCount _ _ (nodup_keys_countWordFrequency _)
  · intro hmem
    have h1 : ∃ f ∈ docs.map fun d => (analyzeText (d.text.getD [])).frequency,
        w ∈ keys f := mem_keys_combineFrequencies _ _ hmem
    obtain ⟨f, hf, hwf⟩ := h1
    obtain ⟨d, hd, rfl⟩ := List.mem_map.mp hf
    exact ⟨d, hd, hwf⟩

/-- C2 (code bug): conservation fails under the real `\x7b\x7d` semantics.
For the one-document batch `[\x7btext: "constructor"\x7d]` the per-document
table stores the string `S ++ "1"` — `S` being the string form of the
inherited `Object` constructor function — because the read
`frequency["constructor"]` finds the inherited member instead of
`undefined`; `combineFrequencies` then concatenates onto a second `S`
rather than summing, so `combinedFrequency["constructor"]` is a string,
not the numeric sum 1 that the conservation invariant demands and that
the intended dictionary semantics (last conjunct) produces. -/
theorem c2_prototype_chain_breaks_conservation :
    countWordFrequencyJS (extractWords "constructor".data)
      = [("constructor".data,
          JsVal.str "function Object() \x7b [native code] \x7d1".data)]
    ∧ combineFrequenciesJS [countWordFrequencyJS (extractWords "constructor".data)]
      = [("constructor".data,
          JsVal.str ("function Object() \x7b [native code] \x7d".data
            ++ "function Object() \x7b [native code] \x7d1".data))]
    ∧ getCount
        (analyzeMultipleArticles [{ text := some "constructor".data }] 5).combinedFrequency
        "constructor".data = 1 := by
  refine ⟨by decide, by decide, by decide⟩

/-- C3: a batch processes every document — `totalArticles` is the input
length and every document is annotated with its own analysis; a document
with empty or missing text contributes the zero-valued analysis without
aborting the batch; the three-document scenario with one failed document
still analyzes the other two, and the empty batch yields the empty
result. -/
theorem c3_batch_processes_all_documents :
    (∀ (docs : List Document) (n : Int),
        (analyzeMultipleArticles docs n).totalArticles = docs.length
        ∧ (analyzeMultipleArticles docs n).articles
            = docs.map (fun d => { d with analysis := some (analyzeText (d.text.getD [])) }))
    ∧ (∀ d : Document, d.text = none ∨ d.text = some [] →
        analyzeText (d.text.getD []) = ⟨0, 0, [], []⟩)
    ∧ analyzeMultipleArticles [] 5
        = { articles := [], combinedFrequency := [], topWords := [], totalArticles := 0 }
    ∧ (analyzeMultipleArticles
          [ { text := some "lion lion tiger".data },
            { text := some [], err := some "extraction failed".data },
            { text := some "tiger zebra".data } ] 5).totalArticles = 3
    ∧ (analyzeMultipleArticles
          [ { text := some "lion lion tiger".data },
            { text := some [], err := some "extraction failed".data },
            { text := some "tiger zebra".data } ] 5).topWords
        = [⟨"lion".data, 2⟩, ⟨"tiger".data, 2⟩, ⟨"zebra".data, 1⟩] := by
  refine ⟨fun docs n => ⟨rfl, rfl⟩, ?_, rfl, rfl, by decide⟩
  intro d hd
  rcases hd with hd | hd <;> rw [hd] <;> rfl

/-- C3 witness: the zero-contribution clause at a concrete failed
document. -/
theorem c3_batch_processes_all_documents_witness :
    analyzeText ((({ text := some [] } : Document)).text.getD []) = ⟨0, 0, [], []⟩ :=
  c3_batch_processes_all_documents.2.1 { text := some [] } (Or.inr rfl)

/-- C4: for `N ≥ 0`, `getTopWords` returns a descending-by-count sequence
of length `min(N, table size)` whose members are entries of the table; the
sort is stable — at each count value the output follows the table's
enumeration order — and the empty table yields the empty sequence. -/
theorem c4_getTopWords_ranking_correct :
    (∀ (freq : FreqTable) (n : Int), 0 ≤ n →
      (getTopWords freq n).Pairwise countGE
      ∧ (getTopWords freq n).length = min n.toNat freq.length
      ∧ (∀ p ∈ getTopWords freq n, (p.word, p.count) ∈ freq)
      ∧ (∀ c : Nat, (getTopWords freq n).filter (fun p => p.count == c)
          <+: (freq.map (fun q => (⟨q.1, q.2⟩ : RankedWord))).filter
            (fun p => p.count == c)))
    ∧ getTopWords [] 5 = [] := by
  refine ⟨?_, rfl⟩
  intro freq n hn
  exact ⟨sorted_getTopWords freq n, length_getTopWords_nonneg freq n hn,
    mem_getTopWords freq n, filter_getTopWords freq n⟩

/-- C4 witness: ranking properties evaluated on a concrete table. -/
theorem c4_getTopWords_ranking_correct_witness :
    (getTopWords [("fox".data, 2), ("cat".data, 1)] 5).length
      = min (5 : Int).toNat 2
    ∧ ("fox".data, 2) ∈ ([("fox".data, 2), ("cat".data, 1)] : FreqTable) := by
  have h := c4_getTopWords_ranking_correct.1 [("fox".data, 2), ("cat".data, 1)] 5 (by decide)
  exact ⟨h.2.1, h.2.2.1 ⟨"fox".data, 2⟩ (by decide)⟩

/-- C5: no token produced by `extractWords` is shorter than three
characters, all digits, or a stop word; a three-character token of the
normalized text passing the other filters is retained. -/
theorem c5_extractWords_filtering :
    ∀ (t : Str) (w : Str),
      (w ∈ extractWords t → 3 ≤ w.length ∧ isAllDigits w = false ∧ w ∉ stopWords)
      ∧ (w ∈ splitOnSpaces (cleanText t) → w.length = 3 → isAllDigits w = false →
          w ∉ stopWords → w ∈ extractWords t) := by
  intro t w
  constructor
  · intro h
    obtain ⟨_, hlen, hstop, hdig⟩ := (mem_extractWords_iff t w).mp h
    exact ⟨hlen, hdig, hstop⟩
  · intro hmem hlen hdig hstop
    exact (mem_extractWords_iff t w).mpr ⟨hmem, by omega, hstop, hdig⟩

/-- C5 witness: the filter guarantees at a concrete input, and retention
of a three-character token. -/
theorem c5_extractWords_filtering_witness :
    (3 ≤ ("fox".data : Str).length ∧ isAllDigits "fox".data = false
      ∧ "fox".data ∉ stopWords)
    ∧ "fox".data ∈ extractWords "fox! cat".data := by
  have h := c5_extractWords_filtering "fox! cat".data "fox".data
  exact ⟨h.1 (by decide), h.2 (by decide) (by decide) (by decide) (by decide)⟩

/-- C6: `analyzeText` never raises — every call returns normally — and a
missing or empty text yields the zero-valued result. -/
theorem c6_analyzeText_total_and_zero_on_empty :
    (∀ t : Option Str, analyzeTextCall t = .ok (analyzeTextJS t))
    ∧ analyzeTextJS none = ⟨0, 0, [], []⟩
    ∧ analyzeTextJS (some []) = ⟨0, 0, [], []⟩ :=
  ⟨fun _ => rfl, rfl, rfl⟩

/-- C7: the normalizer is idempotent. -/
theorem c7_cleanText_idempotent :
    ∀ s : Str, cleanText (cleanText s) = cleanText s :=
  cleanText_idempotent

/-- C8: the full pipeline on `"The Quick, quick fox jumps! The fox
runs."`. -/
theorem c8_scenario_quick_fox :
    cleanText "The Quick, quick fox jumps! The fox runs.".data
      = "the quick quick fox jumps the fox runs".data
    ∧ extractWords "The Quick, quick fox jumps! The fox runs.".data
      = ["quick".data, "quick".data, "fox".data, "jumps".data, "fox".data, "runs".data]
    ∧ countWordFrequency (extractWords "The Quick, quick fox jumps! The fox runs.".data)
      = [("quick".data, 2), ("fox".data, 2), ("jumps".data, 1), ("runs".data, 1)]
    ∧ getTopWords
        (countWordFrequency (extractWords "The Quick, quick fox jumps! The fox runs.".data)) 2
      = [⟨"quick".data, 2⟩, ⟨"fox".data, 2⟩] := by
  refine ⟨by decide, by decide, by decide, by decide⟩

/-- C9: the generated report contains the header, the injected timestamp,
the article count, one entry per document passed in (with 1-based index,
title or fallback, url or fallback, and word count or 0), and one ranked
line per top word; no document is dropped. -/
theorem c9_report_contains_all_sections :
    ∀ (now : Str) (topWords : List RankedWord) (analysis : BatchAnalysisResult),
      "Word Frequency Analysis Results\n===============================\n\n".data
        <:+: generateFileContent now topWords analysis
      ∧ ("Analysis Date: ".data ++ now ++ "\n".data)
        <:+: generateFileContent now topWords analysis
      ∧ ("Articles Analyzed: ".data ++ natStr analysis.articles.length ++ "\n\n".data)
        <:+: generateFileContent now topWords analysis
      ∧ (∀ (i : Nat) (a : Document), analysis.articles[i]? = some a →
          articleEntry i a <:+: generateFileContent now topWords analysis)
      ∧ (∀ (i : Nat) (x : RankedWord), topWords[i]? = some x →
          topEntry i x <:+: generateFileContent now topWords analysis) := by
  intro now topWords analysis
  refine ⟨?_, ?_, ?_, articleEntry_infix now topWords analysis,
    topEntry_infix now topWords analysis⟩
  · rw [generateFileContent_assoc]
    exact isInfix_append_right _ _
  · rw [generateFileContent_assoc]
    exact (isInfix_append_right _ _).trans (isInfix_append_left _ _)
  · rw [generateFileContent_assoc]
    exact ((isInfix_append_right _ _).trans (isInfix_append_left _ _)).trans
      (isInfix_append_left _ _)

/-- C9 witness: the per-article and per-word clauses at a concrete
report. -/
theorem c9_report_contains_all_sections_witness :
    articleEntry 0 { title := some "t1".data }
      <:+: generateFileContent "2024-01-01".data [⟨"fox".data, 2⟩]
        { articles := [{ title := some "t1".data }], combinedFrequency := [("fox".data, 2)],
          topWords := [⟨"fox".data, 2⟩], totalArticles := 1 }
    ∧ topEntry 0 ⟨"fox".data, 2⟩
      <:+: generateFileContent "2024-01-01".data [⟨"fox".data, 2⟩]
        { articles := [{ title := some "t1".data }], combinedFrequency := [("fox".data, 2)],
          topWords := [⟨"fox".data, 2⟩], totalArticles := 1 } := by
  have h := c9_report_contains_all_sections "2024-01-01".data [⟨"fox".data, 2⟩]
    { articles := [{ title := some "t1".data }], combinedFrequency := [("fox".data, 2)],
      topWords := [⟨"fox".data, 2⟩], totalArticles := 1 }
  exact ⟨h.2.2.2.1 0 { title := some "t1".data } rfl, h.2.2.2.2 0 ⟨"fox".data, 2⟩ rfl⟩

/-- In the intended dictionary semantics, every `analyzeText` result is
internally consistent: `totalWords` is the sum of the stored counts, the
table's keys are distinct and counted by `uniqueWords`, every count is
positive, and `topWords` has the default ranking length
`min 5 uniqueWords`.  The real `\x7b\x7d` tables break this on the
`Object.prototype` member names (see
`c10_prototype_chain_breaks_invariants`). -/
theorem analysis_result_invariants_intended :
    ∀ t : Str,
      (analyzeText t).totalWords = ((analyzeText t).frequency.map Prod.snd).sum
      ∧ (keys (analyzeText t).frequency).Nodup
      ∧ (analyzeText t).uniqueWords = (analyzeText t).frequency.length
      ∧ (∀ p ∈ (analyzeText t).frequency, 1 ≤ p.2)
      ∧ (analyzeText t).topWords.length = min 5 (analyzeText t).frequency.length := by
  intro t
  refine ⟨(sum_counts_countWordFrequency _).symm, nodup_keys_countWordFrequency _, rfl,
    pos_counts_countWordFrequency _, ?_⟩
  show (getTopWords (countWordFrequency (extractWords t)) 5).length = _
  rw [length_getTopWords_nonneg _ 5 (by decide)]
  rfl

/-- C10 (code bug): the result invariants fail under the real `\x7b\x7d`
semantics.  `"proto __proto__ proto"` yields three tokens, so
`totalWords` is 3; but the write to `__proto__` is consumed by the
inherited accessor, so the table really stored is `proto ↦ 2` — its
counts sum to 2, not 3, and `Object.keys` counts one word, not two —
while the intended dictionary semantics stores `proto ↦ 2, __proto__ ↦ 1`
as the claim describes.  On `"constructor"` the real table stores a
string (the inherited `Object` function's text plus `"1"`), not a count
`≥ 1`. -/
theorem c10_prototype_chain_breaks_invariants :
    (analyzeText "proto __proto__ proto".data).totalWords = 3
    ∧ countWordFrequencyJS (extractWords "proto __proto__ proto".data)
        = [("proto".data, JsVal.num 2)]
    ∧ countWordFrequency (extractWords "proto __proto__ proto".data)
        = [("proto".data, 2), ("__proto__".data, 1)]
    ∧ countWordFrequencyJS (extractWords "constructor".data)
        = [("constructor".data,
            JsVal.str "function Object() \x7b [native code] \x7d1".data)] := by
  refine ⟨by decide, by decide, by decide, by decide⟩

end WordAnalyzer
